import Mathlib

/-!
Shallow embedding of the BanditPAM k-medoids core
(`src/src/kmedoids_algorithm.cpp`) and verification of the frozen claims
about it.

Machine doubles are modelled as real numbers; `+inf` sentinels used by the
scans are modelled with `WithTop`/`EReal` tops; C++ strings are modelled as
`List Char`; `throw`/`catch` control flow is modelled with explicit outcome
values.  The loss member-function pointer `lossFn` is modelled as a tagged
selector `LossSel`, and the engine subclasses (`fit_naive`, `fit_bpam`,
`fit_fastpam1`, which live in other translation units) are abstracted as
state-transformer parameters of the driver.
-/

namespace KM

/-! ### Loss-tag parsing (`km::KMedoids::setLossFn`, lines 115-135) -/

/-- The loss selector stored in the `lossFn` / `lp` members: one of the four
member functions `LP` (with its integer exponent), `manhattan`, `cos`,
`LINF`. -/
inductive LossSel where
  | lp (p : ℕ)
  | manhattanL
  | cosL
  | linfL
deriving DecidableEq

/-- Model of C `atoi` on the strings reachable in `setLossFn` (first
character is a digit): the value of the maximal leading run of decimal
digits. -/
def atoiDigits : List Char → ℕ → ℕ
  | [], acc => acc
  | c :: cs, acc =>
      if c.isDigit then atoiDigits cs (10 * acc + (c.toNat - Char.toNat '0')) else acc

/-- `atoi` entry point. -/
def atoiNat (s : List Char) : ℕ := atoiDigits s 0

/-- Model of `std::regex_match(loss, std::regex("L\\d*"))`: a full match of
the literal `L` followed by zero or more decimal digits. -/
def isLpTag : List Char → Bool
  | c :: rest => c == 'L' && rest.all Char.isDigit
  | [] => false

/-- Outcome of one call to `setLossFn`:
`ok sel` — a loss branch matched and the members were set;
`caughtInvalid` — the `std::invalid_argument` thrown on an unrecognized
tag was caught by the handler inside `setLossFn`, which prints it to
`std::cout` and returns normally;
`uncaughtOutOfRange` — `loss.at(0)` on an empty string threw
`std::out_of_range`, which the handler (typed for `invalid_argument`)
does not catch, so the exception escapes `setLossFn`. -/
inductive ParseOutcome where
  | ok (sel : LossSel)
  | caughtInvalid
  | uncaughtOutOfRange
deriving DecidableEq

/-- `km::KMedoids::setLossFn` (lines 115-135): strip a leading `L` when the
tag fully matches `L\d*`, then test `manhattan` / `cos` / `inf`, then
`std::isdigit(loss.at(0))`, setting `lossFn = LP` and `lp = atoi(loss)`;
any other tag throws `std::invalid_argument`, which the function itself
catches and prints. -/
def setLossFnParse (tag : List Char) : ParseOutcome :=
  let loss := if isLpTag tag then tag.drop 1 else tag
  if loss = "manhattan".data then .ok .manhattanL
  else if loss = "cos".data then .ok .cosL
  else if loss = "inf".data then .ok .linfL
  else
    match loss with
    | [] => .uncaughtOutOfRange
    | c :: _ => if c.isDigit then .ok (.lp (atoiNat loss)) else .caughtInvalid

/-! ### The data matrix and the dissimilarity kernels (lines 523-569) -/

/-- A dense real matrix, `n_rows` features by `n_cols` samples
(`arma::mat`). -/
structure Mat where
  n_rows : ℕ
  n_cols : ℕ
  entry : ℕ → ℕ → ℝ

/-- `km::KMedoids::LP` (lines 523-525): `arma::norm(data.col(i) - data.col(j), lp)`,
the p-norm `(Σ_f |D[f,i] - D[f,j]|^p)^(1/p)`. -/
noncomputable def LP (data : Mat) (lp : ℕ) (i j : ℕ) : ℝ :=
  (∑ f in Finset.range data.n_rows, |data.entry f i - data.entry f j| ^ lp) ^ ((1 : ℝ) / lp)

/-- `km::KMedoids::manhattan` (lines 553-555): `arma::accu(arma::abs(col i - col j))`. -/
noncomputable def manhattan (data : Mat) (i j : ℕ) : ℝ :=
  ∑ f in Finset.range data.n_rows, |data.entry f i - data.entry f j|

/-- `km::KMedoids::LINF` (lines 567-569): `arma::max(arma::abs(col i - col j))`,
the maximum over the (nonempty, `d ≥ 1`) feature range; folded against 0,
which agrees with `arma::max` on every nonempty vector of absolute values. -/
noncomputable def LINF (data : Mat) (i j : ℕ) : ℝ :=
  ((List.range data.n_rows).map fun f => |data.entry f i - data.entry f j|).foldr max 0

/-- `arma::dot(data.col(i), data.col(j))`. -/
noncomputable def dotCol (data : Mat) (i j : ℕ) : ℝ :=
  ∑ f in Finset.range data.n_rows, data.entry f i * data.entry f j

/-- `arma::norm(data.col(i))`, the Euclidean norm. -/
noncomputable def normCol (data : Mat) (i : ℕ) : ℝ :=
  Real.sqrt (∑ f in Finset.range data.n_rows, (data.entry f i) ^ 2)

/-- `km::KMedoids::cos` (lines 538-541): the raw quotient
`dot / (norm i * norm j)`, with no zero-norm guard of any kind. -/
noncomputable def cos (data : Mat) (i j : ℕ) : ℝ :=
  dotCol data i j / (normCol data i * normCol data j)

/-- Dispatch through the `lossFn` member pointer. -/
noncomputable def applyLoss (sel : LossSel) (data : Mat) (i j : ℕ) : ℝ :=
  match sel with
  | .lp p => LP data p i j
  | .manhattanL => manhattan data i j
  | .cosL => cos data i j
  | .linfL => LINF data i j

/-! ### Assignment recomputation (`calc_best_distances_swap`, lines 378-401) -/

/-- Per-point scan state: the running best and second-best distances
(initialized to `std::numeric_limits<double>::infinity()`, modelled as `⊤`)
and the arg-min slot written into `assignments(i)`. -/
structure BDS (α : Type) where
  best : WithTop α
  second : WithTop α
  assign : ℕ

/-- One iteration of the inner loop of `calc_best_distances_swap`
(lines 388-397) at medoid slot `k` with cost `c`. -/
def bdsStep {α : Type} [LinearOrder α] (st : BDS α) (k : ℕ) (c : α) : BDS α :=
  if (c : WithTop α) < st.best then ⟨c, st.best, k⟩
  else if (c : WithTop α) < st.second then ⟨st.best, c, st.assign⟩
  else st

/-- The inner loop of `calc_best_distances_swap` over the remaining costs,
`k` being the current medoid slot index. -/
def bdsGo {α : Type} [LinearOrder α] (st : BDS α) (k : ℕ) : List α → BDS α
  | [] => st
  | c :: cs => bdsGo (bdsStep st k c) (k + 1) cs

/-- `km::KMedoids::calc_best_distances_swap` at one point `i`: scan the
medoid slots `k = 0, 1, ...` computing `cost = lossFn(data, medoid_indices(k), i)`
and maintain the two smallest costs and the arg-min slot.  The dissimilarity
is abstract (`dis`), exactly as the source calls it through the `lossFn`
member pointer. -/
def calc_best_distances_swap {α : Type} [LinearOrder α]
    (dis : ℕ → ℕ → α) (medoid_indices : List ℕ) (i : ℕ) : BDS α :=
  bdsGo ⟨⊤, ⊤, 0⟩ 0 (medoid_indices.map fun m => dis m i)

/-- The elementwise embedding of a list of finite values into `WithTop`. -/
def coeList {α : Type} (cs : List α) : List (WithTop α) :=
  cs.map fun (c : α) => (c : WithTop α)

/-- Specification-side notion for claim C4: the multiset of dissimilarities
from the medoids of `M` to point `i`, as extended values (so that minima
over an empty collection are `⊤`). -/
def costMS {α : Type} [LinearOrder α] (dis : ℕ → ℕ → α) (M : List ℕ) (i : ℕ) :
    Multiset (WithTop α) :=
  (coeList (M.map fun m => dis m i) : Multiset (WithTop α))

/-- Specification-side notion for claim C4: the smallest element of a
multiset together with the smallest element left after removing one
occurrence of it (the "second smallest", multiplicity counted). -/
def twoSmallest {α : Type} [LinearOrder α] (ms : Multiset (WithTop α)) :
    WithTop α × WithTop α :=
  (ms.inf, (ms.erase ms.inf).inf)

/-- The state read and written by one call of `calc_best_distances_swap`
(its reference parameters plus the members it reads: the matrix, the
selected loss and the medoid index row). -/
structure SwapCallState where
  data : Mat
  lossSel : LossSel
  medoid_indices : List ℕ
  best_distances : ℕ → WithTop ℝ
  second_distances : ℕ → WithTop ℝ
  assignments : ℕ → ℕ

/-- `calc_best_distances_swap` as a state transformer: for every point
`i < data.n_cols` it overwrites `best_distances(i)`, `second_distances(i)`
and `assignments(i)` with the scan results; nothing else is written. -/
noncomputable def calc_best_distances_swap_state (s : SwapCallState) : SwapCallState :=
  let dis := fun m j => applyLoss s.lossSel s.data m j
  { s with
    best_distances := fun i =>
      if i < s.data.n_cols then (calc_best_distances_swap dis s.medoid_indices i).best
      else s.best_distances i,
    second_distances := fun i =>
      if i < s.data.n_cols then (calc_best_distances_swap dis s.medoid_indices i).second
      else s.second_distances i,
    assignments := fun i =>
      if i < s.data.n_cols then (calc_best_distances_swap dis s.medoid_indices i).assign
      else s.assignments i }

/-! ### Sample standard deviation (`arma::stddev`, default `norm_type = 0`) -/

/-- `arma::mean` of a sample vector. -/
noncomputable def sampleMean (l : List ℝ) : ℝ := l.sum / l.length

/-- `arma::var` with the default `norm_type = 0`: the sample variance with
the `n - 1` denominator. -/
noncomputable def sampleVariance (l : List ℝ) : ℝ :=
  ((l.map fun x => (x - sampleMean l) ^ 2).sum) / ((l.length : ℝ) - 1)

/-- `arma::stddev` with the default `norm_type = 0`. -/
noncomputable def stddev (l : List ℝ) : ℝ := Real.sqrt (sampleVariance l)

/-! ### `build_sigma` (lines 324-362) -/

/-- `km::KMedoids::build_sigma` at candidate `i`: over the single reference
sample `tmp_refs` (drawn once by `arma::randperm`, i.e. without replacement,
before the loop over candidates and therefore shared by all of them), fill
`sample(j)` with the raw cost when `use_absolute` holds and with
`min(cost, best_distances(r)) - best_distances(r)` otherwise, then take
`arma::stddev`. -/
noncomputable def build_sigma (dis : ℕ → ℕ → ℝ) (best_distances : ℕ → ℝ)
    (tmp_refs : List ℕ) (use_absolute : Bool) (i : ℕ) : ℝ :=
  stddev (tmp_refs.map fun r =>
    let cost := dis i r
    if use_absolute then cost
    else (if cost < best_distances r then cost else best_distances r) - best_distances r)

/-! ### `swap_sigma` (lines 417-461) -/

/-- Decoding of the flat arm index `i` of `swap_sigma`:
`n = i / K`, `k = i % K`; the result is written to `updated_sigma(k, n)`. -/
def arm_key (K : ℕ) (i : ℕ) : ℕ × ℕ := (i % K, i / K)

/-- The sample-standard-deviation computed by the body of the `swap_sigma`
loop at flat arm index `i` (lines 440-458): reference `r` contributes
`min(cost, second)` when the evicted slot `k` is the one `r` is assigned to
and `min(cost, best)` otherwise, minus `best_distances(r)`. -/
noncomputable def swap_arm_value (dis : ℕ → ℕ → ℝ) (tmp_refs : List ℕ)
    (best_distances second_best_distances : ℕ → ℝ) (assignments : ℕ → ℕ)
    (K : ℕ) (i : ℕ) : ℝ :=
  let n := i / K
  let k := i % K
  stddev (tmp_refs.map fun r =>
    (if k = assignments r
     then (if dis n r < second_best_distances r then dis n r else second_best_distances r)
     else (if dis n r < best_distances r then dis n r else best_distances r))
    - best_distances r)

/-- `km::KMedoids::swap_sigma`: a `K × N` matrix (modelled as a function on
index pairs `(k, n)`, zero-initialized by `arma::fill::zeros`) filled by the
loop over flat arm indices `i < K * N`, every arm using the one shared
reference sample `tmp_refs`. -/
noncomputable def swap_sigma (dis : ℕ → ℕ → ℝ) (K N : ℕ) (tmp_refs : List ℕ)
    (best_distances second_best_distances : ℕ → ℝ) (assignments : ℕ → ℕ) :
    ℕ × ℕ → ℝ :=
  (List.range (K * N)).foldl
    (fun f i =>
      Function.update f (arm_key K i)
        (swap_arm_value dis tmp_refs best_distances second_best_distances assignments K i))
    (fun _ => 0)

/-! ### `calc_loss` (lines 494-510) -/

/-- The inner loop of `calc_loss` at point `i`: `cost` starts at
`+infinity` (modelled as `⊤ : EReal`) and is lowered by every strictly
smaller `lossFn(data, medoid_indices(k), i)`, `k < n_medoids`. -/
noncomputable def calc_loss_point (dis : ℕ → ℕ → ℝ) (n_medoids : ℕ) (medoids : ℕ → ℕ) (i : ℕ) : EReal :=
  (List.range n_medoids).foldl
    (fun cost k =>
      if ((dis (medoids k) i : ℝ) : EReal) < cost
      then ((dis (medoids k) i : ℝ) : EReal) else cost) ⊤

/-- `km::KMedoids::calc_loss`: the total of the per-point minima over the
`n_medoids` medoid slots (the outer accumulation over `i < N` is a plain
commutative sum, written as `Finset.sum`). -/
noncomputable def calc_loss (dis : ℕ → ℕ → ℝ) (n_medoids : ℕ) (medoids : ℕ → ℕ) (N : ℕ) : EReal :=
  ∑ i in Finset.range N, calc_loss_point dis n_medoids medoids i

/-! ### The driver (`checkAlgorithm`, `setAlgorithm`, `fit`, lines 62-66, 171-174, 294-310) -/

/-- `km::KMedoids::checkAlgorithm` (lines 62-66): `true` iff the call
returns normally, `false` iff it throws `"unrecognized algorithm"`. -/
def checkAlgorithm (alg : List Char) : Bool :=
  decide (alg = "BanditPAM".data) || decide (alg = "naive".data) ||
    decide (alg = "FastPAM1".data)

/-- The driver-level members of the `KMedoids` object that the claims
mention (the diagnostics sink of `fit`, out of the specified core, is not
modelled). -/
structure KMTop where
  n_medoids : ℕ
  algorithm : List Char
  max_iter : ℕ
  lossSel : LossSel
  medoid_indices_build : List ℕ
  medoid_indices_final : List ℕ
  labels : ℕ → ℕ
  steps : ℕ

/-- `km::KMedoids::setAlgorithm` (lines 171-174): the member `algorithm` is
overwritten first, and only then `checkAlgorithm` runs; the Boolean is
`true` iff the call threw. -/
def setAlgorithm (s : KMTop) (new_alg : List Char) : KMTop × Bool :=
  ({ s with algorithm := new_alg }, !(checkAlgorithm new_alg))

/-- Which engine a `fit` call entered, if any. -/
inductive Engine where
  | naiveE
  | banditE
  | fastpam1E
deriving DecidableEq

/-- Outcome of a `fit` call: `done entered printedErr` when the call
returns normally (`entered` is the engine branch taken, `printedErr`
records whether `setLossFn` printed a caught loss error to `std::cout`);
`crashed` when an exception escapes to the caller. -/
inductive FitOutcome where
  | done (entered : Option Engine) (printedErr : Bool)
  | crashed
deriving DecidableEq

/-- The engine-dispatch chain of `fit` (lines 296-302): the three string
comparisons in source order; an `algorithm` matching none of them runs no
engine and leaves the state untouched. -/
def runDispatch (rn rb rf : KMTop → Mat → KMTop) (s : KMTop) (D : Mat) :
    KMTop × Option Engine :=
  if s.algorithm = "naive".data then (rn s D, some .naiveE)
  else if s.algorithm = "BanditPAM".data then (rb s D, some .banditE)
  else if s.algorithm = "FastPAM1".data then (rf s D, some .fastpam1E)
  else (s, none)

/-- Which engine branch the dispatch chain would take for a given
`algorithm` string. -/
def dispatchAlg (alg : List Char) : Option Engine :=
  if alg = "naive".data then some .naiveE
  else if alg = "BanditPAM".data then some .banditE
  else if alg = "FastPAM1".data then some .fastpam1E
  else none

/-- `km::KMedoids::fit` (lines 294-310): first `setLossFn(loss)`, then the
dispatch chain.  The engines `fit_naive` / `fit_bpam` / `fit_fastpam1` live
in other translation units and are passed as abstract state transformers
`rn` / `rb` / `rf`.  When `setLossFn` merely *prints* the unrecognized-loss
error (its own `catch` block), `fit` continues into the dispatch with the
previous `lossFn`; when `loss.at(0)` throws `std::out_of_range`, the
exception escapes `fit` itself. -/
def fitResume (rn rb rf : KMTop → Mat → KMTop) (s : KMTop) (D : Mat) :
    ParseOutcome → KMTop × FitOutcome
  | .uncaughtOutOfRange => (s, .crashed)
  | .caughtInvalid =>
      ((runDispatch rn rb rf s D).1, .done (runDispatch rn rb rf s D).2 true)
  | .ok sel =>
      ((runDispatch rn rb rf { s with lossSel := sel } D).1,
        .done (runDispatch rn rb rf { s with lossSel := sel } D).2 false)

/-- `fit` itself: parse the loss tag, then resume as above. -/
def fit (rn rb rf : KMTop → Mat → KMTop) (s : KMTop) (D : Mat) (tag : List Char) :
    KMTop × FitOutcome :=
  fitResume rn rb rf s D (setLossFnParse tag)

/-! ### Concrete instances used by counterexamples and witnesses -/

/-- A 1-feature matrix whose two columns are the anti-parallel vectors
`(1)` and `(-1)`. -/
noncomputable def Dneg : Mat := ⟨1, 2, fun _ j => if j = 0 then 1 else -1⟩

/-- A 2-feature, 2-column matrix whose column 0 is the zero vector. -/
noncomputable def Dzero : Mat := ⟨2, 2, fun _ j => if j = 0 then 0 else 1⟩

/-- An engine stub that leaves the driver state unchanged. -/
def idEngine : KMTop → Mat → KMTop := fun s _ => s

/-- A concrete driver state with `algorithm = "BanditPAM"`. -/
def s0 : KMTop := ⟨2, "BanditPAM".data, 100, .lp 2, [], [], fun _ => 0, 0⟩

/-- A concrete driver state with `algorithm = "naive"`. -/
def sNaive : KMTop := { s0 with algorithm := "naive".data }

/-- A concrete rational dissimilarity on two points, used by witnesses:
point 0 is at cost 5, every other point at cost 3. -/
def disQ : ℕ → ℕ → ℚ := fun m _ => if m = 0 then 5 else 3

/-! ### Helper lemmas -/

theorem foldr_max_nonneg (l : List ℝ) : 0 ≤ l.foldr max 0 := by
  induction l with
  | nil => exact le_refl 0
  | cons a l ih => exact le_trans ih (le_max_right a _)

theorem runDispatch_snd (rn rb rf : KMTop → Mat → KMTop) (s : KMTop) (D : Mat) :
    (runDispatch rn rb rf s D).2 = dispatchAlg s.algorithm := by
  unfold runDispatch dispatchAlg
  split_ifs <;> rfl

theorem runDispatch_invalid (rn rb rf : KMTop → Mat → KMTop) (s : KMTop) (D : Mat)
    (h : checkAlgorithm s.algorithm = false) : runDispatch rn rb rf s D = (s, none) := by
  unfold checkAlgorithm at h
  simp only [Bool.or_eq_false_iff, decide_eq_false_iff_not] at h
  unfold runDispatch
  rw [if_neg h.1.2, if_neg h.1.1, if_neg h.2]

theorem if_lt_eq_min {β : Type} [LinearOrder β] (a c : β) :
    (if a < c then a else c) = min a c := by
  rcases lt_or_le a c with h | h
  · rw [if_pos h, min_eq_left (le_of_lt h)]
  · rw [if_neg (not_lt.mpr h), min_eq_right h]

theorem foldl_range_getD {α β : Type} (h : β → α → β) (d : α) :
    ∀ (M : List α) (c0 : β),
      (List.range M.length).foldl (fun c k => h c (M.getD k d)) c0 = M.foldl h c0 := by
  intro M
  induction M with
  | nil => intro c0; rfl
  | cons a M ih =>
      intro c0
      show (List.range (M.length + 1)).foldl _ c0 = _
      rw [List.range_succ_eq_map, List.foldl_cons, List.foldl_map]
      simp only [List.getD_cons_succ, List.getD_cons_zero]
      exact ih (h c0 a)

theorem foldl_min_eq_inf (f : ℕ → EReal) :
    ∀ (M : List ℕ) (c0 : EReal),
      M.foldl (fun c m => if f m < c then f m else c) c0 = c0 ⊓ M.toFinset.inf f := by
  intro M
  induction M with
  | nil => intro c0; simp
  | cons a M ih =>
      intro c0
      have hstep : (if f a < c0 then f a else c0) = c0 ⊓ f a := by
        rcases lt_or_le (f a) c0 with h | h
        · rw [if_pos h]
          exact (inf_eq_right.mpr (le_of_lt h)).symm
        · rw [if_neg (not_lt.mpr h)]
          exact (inf_eq_left.mpr h).symm
      rw [List.foldl_cons, ih _, hstep, List.toFinset_cons, Finset.inf_insert, ← inf_assoc]

theorem foldl_update_of_not_mem {ι κ β : Type} [DecidableEq κ] (key : ι → κ) (val : ι → β) :
    ∀ (l : List ι) (g : κ → β) (x : κ), (∀ i ∈ l, key i ≠ x) →
      (l.foldl (fun f i => Function.update f (key i) (val i)) g) x = g x := by
  intro l
  induction l with
  | nil => intro g x _; rfl
  | cons a l ih =>
      intro g x h
      rw [List.foldl_cons, ih _ x fun i hi => h i (List.mem_cons_of_mem a hi)]
      exact Function.update_noteq ((h a (List.mem_cons_self a l)).symm) _ g

theorem foldl_update_lookup {ι κ β : Type} [DecidableEq κ] (key : ι → κ) (val : ι → β) :
    ∀ (l : List ι) (g : κ → β) (i0 : ι), i0 ∈ l →
      (∀ i ∈ l, key i = key i0 → i = i0) →
      (l.foldl (fun f i => Function.update f (key i) (val i)) g) (key i0) = val i0 := by
  intro l
  induction l with
  | nil => intro g i0 h _; exact absurd h (List.not_mem_nil i0)
  | cons a l ih =>
      intro g i0 hmem huniq
      rw [List.foldl_cons]
      by_cases hin : i0 ∈ l
      · exact ih _ i0 hin fun i hi he => huniq i (List.mem_cons_of_mem a hi) he
      · have ha : a = i0 := by
          rcases List.mem_cons.mp hmem with h | h
          · exact h.symm
          · exact absurd h hin
        have hnone : ∀ i ∈ l, key i ≠ key i0 := by
          intro i hi he
          exact hin ((huniq i (List.mem_cons_of_mem a hi) he) ▸ hi)
        rw [foldl_update_of_not_mem key val l _ (key i0) hnone, ha]
        exact Function.update_same _ _ _

theorem bdsStep_lt {α : Type} [LinearOrder α] (st : BDS α) (k : ℕ) (c : α)
    (h : (c : WithTop α) < st.best) : bdsStep st k c = ⟨(c : WithTop α), st.best, k⟩ := by
  unfold bdsStep
  rw [if_pos h]

theorem bdsStep_mid {α : Type} [LinearOrder α] (st : BDS α) (k : ℕ) (c : α)
    (h1 : ¬((c : WithTop α) < st.best)) (h2 : (c : WithTop α) < st.second) :
    bdsStep st k c = ⟨st.best, (c : WithTop α), st.assign⟩ := by
  unfold bdsStep
  rw [if_neg h1, if_pos h2]

theorem bdsStep_ge {α : Type} [LinearOrder α] (st : BDS α) (k : ℕ) (c : α)
    (h1 : ¬((c : WithTop α) < st.best)) (h2 : ¬((c : WithTop α) < st.second)) :
    bdsStep st k c = st := by
  unfold bdsStep
  rw [if_neg h1, if_neg h2]

theorem bdsStep_inv {α : Type} [LinearOrder α] (st : BDS α) (k : ℕ) (c : α)
    (h : st.best ≤ st.second) : (bdsStep st k c).best ≤ (bdsStep st k c).second := by
  by_cases h1 : (c : WithTop α) < st.best
  · rw [bdsStep_lt st k c h1]
    exact le_of_lt h1
  · by_cases h2 : (c : WithTop α) < st.second
    · rw [bdsStep_mid st k c h1 h2]
      exact not_lt.mp h1
    · rw [bdsStep_ge st k c h1 h2]
      exact h

theorem msInf_mem {α : Type} [LinearOrder α] :
    ∀ ms : Multiset (WithTop α), ms ≠ 0 → ms.inf ∈ ms := by
  intro ms
  refine Multiset.induction_on ms (fun h => absurd rfl h) ?_
  intro a s ih _
  by_cases hs : s = 0
  · subst hs
    rw [Multiset.inf_cons, Multiset.inf_zero, inf_top_eq]
    exact Multiset.mem_cons_self a 0
  · rw [Multiset.inf_cons]
    rcases le_total a s.inf with h | h
    · rw [inf_eq_left.mpr h]
      exact Multiset.mem_cons_self a s
    · rw [inf_eq_right.mpr h]
      exact Multiset.mem_cons_of_mem (ih hs)

theorem twoSmallest_drop {α : Type} [LinearOrder α] (s1 s2 x : WithTop α)
    (ms : Multiset (WithTop α)) (h1 : s1 ≤ x) (h2 : s2 ≤ x) :
    twoSmallest (s1 ::ₘ s2 ::ₘ x ::ₘ ms) = twoSmallest (s1 ::ₘ s2 ::ₘ ms) := by
  have hperm : s1 ::ₘ s2 ::ₘ x ::ₘ ms = x ::ₘ s1 ::ₘ s2 ::ₘ ms := by
    rw [Multiset.cons_swap s2 x ms, Multiset.cons_swap s1 x (s2 ::ₘ ms)]
  rw [hperm]
  have hmem1 : s1 ∈ s1 ::ₘ s2 ::ₘ ms := Multiset.mem_cons_self _ _
  have hmem2 : s2 ∈ s1 ::ₘ s2 ::ₘ ms :=
    Multiset.mem_cons_of_mem (Multiset.mem_cons_self _ _)
  have hinfle : (s1 ::ₘ s2 ::ₘ ms).inf ≤ x := le_trans (Multiset.inf_le hmem1) h1
  have hinf : (x ::ₘ s1 ::ₘ s2 ::ₘ ms).inf = (s1 ::ₘ s2 ::ₘ ms).inf := by
    rw [Multiset.inf_cons]
    exact inf_eq_right.mpr hinfle
  unfold twoSmallest
  rw [hinf, Prod.mk.injEq]
  refine ⟨rfl, ?_⟩
  by_cases hx : x = (s1 ::ₘ s2 ::ₘ ms).inf
  · have hs1 : s1 = (s1 ::ₘ s2 ::ₘ ms).inf :=
      le_antisymm (hx ▸ h1) (Multiset.inf_le hmem1)
    have hs2 : s2 = (s1 ::ₘ s2 ::ₘ ms).inf :=
      le_antisymm (hx ▸ h2) (Multiset.inf_le hmem2)
    have hL : (x ::ₘ s1 ::ₘ s2 ::ₘ ms).erase ((s1 ::ₘ s2 ::ₘ ms).inf)
        = s1 ::ₘ s2 ::ₘ ms := by
      rw [← hx, Multiset.erase_cons_head]
    have hR : (s1 ::ₘ s2 ::ₘ ms).erase ((s1 ::ₘ s2 ::ₘ ms).inf) = s2 ::ₘ ms := by
      rw [← hs1, Multiset.erase_cons_head]
    rw [hL, hR]
    conv_lhs => rw [Multiset.inf_cons]
    refine inf_eq_right.mpr ?_
    exact le_trans (Multiset.inf_le (Multiset.mem_cons_self s2 ms))
      (hs2.le.trans (Multiset.inf_le hmem1))
  · rw [Multiset.erase_cons_tail _ hx, Multiset.inf_cons]
    refine inf_eq_right.mpr ?_
    by_cases h1' : s1 = (s1 ::ₘ s2 ::ₘ ms).inf
    · have hmem : s2 ∈ (s1 ::ₘ s2 ::ₘ ms).erase ((s1 ::ₘ s2 ::ₘ ms).inf) := by
        rw [← h1', Multiset.erase_cons_head]
        exact Multiset.mem_cons_self _ _
      exact le_trans (Multiset.inf_le hmem) h2
    · have hmem : s1 ∈ (s1 ::ₘ s2 ::ₘ ms).erase ((s1 ::ₘ s2 ::ₘ ms).inf) := by
        rw [Multiset.erase_cons_tail _ h1']
        exact Multiset.mem_cons_self _ _
      exact le_trans (Multiset.inf_le hmem) h1

theorem bdsGo_best {α : Type} [LinearOrder α] :
    ∀ (cs : List α) (st : BDS α) (k : ℕ),
      (bdsGo st k cs).best
        = st.best ⊓ ((coeList cs : List (WithTop α)) : Multiset (WithTop α)).inf := by
  intro cs
  induction cs with
  | nil =>
      intro st k
      have hgo : bdsGo st k ([] : List α) = st := rfl
      have hnil : ((coeList ([] : List α) : List (WithTop α)) : Multiset (WithTop α)) = 0 := rfl
      rw [hgo, hnil, Multiset.inf_zero, inf_top_eq]
  | cons c cs ih =>
      intro st k
      have hgo : bdsGo st k (c :: cs) = bdsGo (bdsStep st k c) (k + 1) cs := rfl
      have hcons : coeList (c :: cs) = (c : WithTop α) :: coeList cs := rfl
      rw [hgo, ih]
      have hstep : (bdsStep st k c).best = st.best ⊓ (c : WithTop α) := by
        by_cases h1 : (c : WithTop α) < st.best
        · rw [bdsStep_lt st k c h1]
          exact (inf_eq_right.mpr (le_of_lt h1)).symm
        · by_cases h2 : (c : WithTop α) < st.second
          · rw [bdsStep_mid st k c h1 h2]
            exact (inf_eq_left.mpr (not_lt.mp h1)).symm
          · rw [bdsStep_ge st k c h1 h2]
            exact (inf_eq_left.mpr (not_lt.mp h1)).symm
      rw [hstep, hcons, ← Multiset.cons_coe, Multiset.inf_cons, ← inf_assoc]

theorem bdsGo_pair {α : Type} [LinearOrder α] :
    ∀ (cs : List α) (st : BDS α) (k : ℕ), st.best ≤ st.second →
      ((bdsGo st k cs).best, (bdsGo st k cs).second)
        = twoSmallest (st.best ::ₘ st.second ::ₘ
            ((coeList cs : List (WithTop α)) : Multiset (WithTop α))) := by
  intro cs
  induction cs with
  | nil =>
      intro st k h
      have hgo : bdsGo st k ([] : List α) = st := rfl
      have hnil : ((coeList ([] : List α) : List (WithTop α)) : Multiset (WithTop α)) = 0 := rfl
      rw [hgo, hnil]
      unfold twoSmallest
      have hinf : (st.best ::ₘ st.second ::ₘ (0 : Multiset (WithTop α))).inf = st.best := by
        rw [Multiset.inf_cons, Multiset.inf_cons, Multiset.inf_zero, inf_top_eq]
        exact inf_eq_left.mpr h
      rw [hinf, Multiset.erase_cons_head, Multiset.inf_cons, Multiset.inf_zero, inf_top_eq]
  | cons c cs ih =>
      intro st k h
      have hgo : bdsGo st k (c :: cs) = bdsGo (bdsStep st k c) (k + 1) cs := rfl
      have hcons : coeList (c :: cs) = (c : WithTop α) :: coeList cs := rfl
      rw [hgo, ih (bdsStep st k c) (k + 1) (bdsStep_inv st k c h),
        hcons, ← Multiset.cons_coe]
      by_cases h1 : (c : WithTop α) < st.best
      · rw [bdsStep_lt st k c h1]
        dsimp only
        rw [Multiset.cons_swap st.second, Multiset.cons_swap st.best]
        refine (twoSmallest_drop _ _ _ _ ?_ ?_).symm
        · exact le_of_lt (lt_of_lt_of_le h1 h)
        · exact h
      · by_cases h2 : (c : WithTop α) < st.second
        · rw [bdsStep_mid st k c h1 h2]
          dsimp only
          rw [Multiset.cons_swap st.second]
          refine (twoSmallest_drop _ _ _ _ ?_ ?_).symm
          · exact h
          · exact le_of_lt h2
        · rw [bdsStep_ge st k c h1 h2]
          refine (twoSmallest_drop _ _ _ _ ?_ ?_).symm
          · exact not_lt.mp h1
          · exact not_lt.mp h2

theorem bdsGo_assign {α : Type} [LinearOrder α] :
    ∀ (cs : List α) (st : BDS α) (k : ℕ),
      ((∀ c ∈ cs, ¬((c : WithTop α) < st.best)) →
        (bdsGo st k cs).assign = st.assign ∧ (bdsGo st k cs).best = st.best)
      ∧ ((∃ c ∈ cs, (c : WithTop α) < st.best) →
        ∃ j, j < cs.length ∧ (bdsGo st k cs).assign = k + j
          ∧ (∀ x, cs.get? j = some x → (x : WithTop α) = (bdsGo st k cs).best)
          ∧ (∀ t, t < j → ∀ x, cs.get? t = some x →
              (bdsGo st k cs).best < (x : WithTop α))) := by
  intro cs
  induction cs with
  | nil =>
      intro st k
      refine ⟨fun _ => ⟨rfl, rfl⟩, ?_⟩
      rintro ⟨c, hc, -⟩
      exact absurd hc (List.not_mem_nil c)
  | cons c cs ih =>
      intro st k
      have hgo : bdsGo st k (c :: cs) = bdsGo (bdsStep st k c) (k + 1) cs := rfl
      constructor
      · intro hall
        have hc : ¬((c : WithTop α) < st.best) := hall c (List.mem_cons_self c cs)
        have hb : (bdsStep st k c).best = st.best := by
          by_cases h2 : (c : WithTop α) < st.second
          · rw [bdsStep_mid st k c hc h2]
          · rw [bdsStep_ge st k c hc h2]
        have ha : (bdsStep st k c).assign = st.assign := by
          by_cases h2 : (c : WithTop α) < st.second
          · rw [bdsStep_mid st k c hc h2]
          · rw [bdsStep_ge st k c hc h2]
        obtain ⟨h1, h2⟩ := (ih (bdsStep st k c) (k + 1)).1
          (fun y hy => by rw [hb]; exact hall y (List.mem_cons_of_mem c hy))
        rw [hgo]
        exact ⟨h1.trans ha, h2.trans hb⟩
      · intro hex
        rw [hgo]
        by_cases hc : (c : WithTop α) < st.best
        · have hstep : bdsStep st k c = ⟨(c : WithTop α), st.best, k⟩ := bdsStep_lt st k c hc
          by_cases hex2 : ∃ y ∈ cs, (y : WithTop α) < (bdsStep st k c).best
          · obtain ⟨j, hjlen, hjassign, hjeq, hjlt⟩ := (ih (bdsStep st k c) (k + 1)).2 hex2
            refine ⟨j + 1, Nat.succ_lt_succ hjlen, ?_, ?_, ?_⟩
            · rw [hjassign]
              omega
            · intro x hx
              rw [List.get?_cons_succ] at hx
              exact hjeq x hx
            · intro t ht x hx
              cases t with
              | zero =>
                  rw [List.get?_cons_zero] at hx
                  have hcx : c = x := Option.some.inj hx
                  subst hcx
                  obtain ⟨y, hymem, hylt⟩ := hex2
                  have hble : (bdsGo (bdsStep st k c) (k + 1) cs).best ≤ (y : WithTop α) := by
                    rw [bdsGo_best]
                    refine le_trans inf_le_right (Multiset.inf_le ?_)
                    rw [Multiset.mem_coe]
                    exact List.mem_map_of_mem _ hymem
                  have hylt' : (y : WithTop α) < (c : WithTop α) := by
                    rw [hstep] at hylt
                    exact hylt
                  exact lt_of_le_of_lt hble hylt'
              | succ t =>
                  rw [List.get?_cons_succ] at hx
                  exact hjlt t (Nat.lt_of_succ_lt_succ ht) x hx
          · have hall2 : ∀ y ∈ cs, ¬((y : WithTop α) < (bdsStep st k c).best) :=
              fun y hy hlt => hex2 ⟨y, hy, hlt⟩
            obtain ⟨h1, h2⟩ := (ih (bdsStep st k c) (k + 1)).1 hall2
            refine ⟨0, Nat.succ_pos cs.length, ?_, ?_, ?_⟩
            · rw [h1, hstep]
              rfl
            · intro x hx
              rw [List.get?_cons_zero] at hx
              have hcx : c = x := Option.some.inj hx
              subst hcx
              rw [h2, hstep]
            · intro t ht
              exact absurd ht (Nat.not_lt_zero t)
        · have hb : (bdsStep st k c).best = st.best := by
            by_cases h2 : (c : WithTop α) < st.second
            · rw [bdsStep_mid st k c hc h2]
            · rw [bdsStep_ge st k c hc h2]
          have hex2 : ∃ y ∈ cs, (y : WithTop α) < (bdsStep st k c).best := by
            obtain ⟨y, hymem, hylt⟩ := hex
            rcases List.mem_cons.mp hymem with h | h
            · exact absurd (h ▸ hylt) hc
            · exact ⟨y, h, by rw [hb]; exact hylt⟩
          obtain ⟨j, hjlen, hjassign, hjeq, hjlt⟩ := (ih (bdsStep st k c) (k + 1)).2 hex2
          refine ⟨j + 1, Nat.succ_lt_succ hjlen, ?_, ?_, ?_⟩
          · rw [hjassign]
            omega
          · intro x hx
            rw [List.get?_cons_succ] at hx
            exact hjeq x hx
          · intro t ht x hx
            cases t with
            | zero =>
                rw [List.get?_cons_zero] at hx
                have hcx : c = x := Option.some.inj hx
                subst hcx
                obtain ⟨y, hymem, hylt⟩ := hex2
                have hble : (bdsGo (bdsStep st k c) (k + 1) cs).best ≤ (y : WithTop α) := by
                  rw [bdsGo_best]
                  refine le_trans inf_le_right (Multiset.inf_le ?_)
                  rw [Multiset.mem_coe]
                  exact List.mem_map_of_mem _ hymem
                have h3 : (y : WithTop α) < st.best := by
                  rw [hb] at hylt
                  exact hylt
                exact lt_of_le_of_lt hble (lt_of_lt_of_le h3 (not_lt.mp hc))
            | succ t =>
                rw [List.get?_cons_succ] at hx
                exact hjlt t (Nat.lt_of_succ_lt_succ ht) x hx

/-! ### Claims -/

/-- Claim C8 (confirmed): the tags `"L2"` and `"2"` both select the `LP`
loss with exponent 2 (Euclidean); `"L1"` selects `LP` with exponent 1 and
`"manhattan"` selects the `manhattan` member, and those two dissimilarity
functions agree on every matrix and every pair of column indices. -/
theorem C8_loss_tag_round_trip :
    setLossFnParse ("L2".data) = .ok (.lp 2)
    ∧ setLossFnParse ("2".data) = .ok (.lp 2)
    ∧ setLossFnParse ("L1".data) = .ok (.lp 1)
    ∧ setLossFnParse ("manhattan".data) = .ok .manhattanL
    ∧ ∀ (data : Mat) (i j : ℕ), manhattan data i j = LP data 1 i j := by
  refine ⟨by decide, by decide, by decide, by decide, ?_⟩
  intro data i j
  unfold manhattan LP
  rw [Nat.cast_one, div_one, Real.rpow_one]
  exact Finset.sum_congr rfl fun f _ => (pow_one _).symm

/-- Claim C3, counterexample: the cosine "dissimilarity" of the two
anti-parallel columns of `Dneg` is `-1 < 0`, so the claim that every loss
variant is non-negative on every matrix is false. -/
theorem C3_counterexample_cosine_negative : applyLoss .cosL Dneg 0 1 < 0 := by
  have h0 : normCol Dneg 0 = 1 := by
    simp [normCol, Dneg]
  have h1 : normCol Dneg 1 = 1 := by
    simp [normCol, Dneg]
  have hd : dotCol Dneg 0 1 = -1 := by
    simp [dotCol, Dneg]
  show cos Dneg 0 1 < 0
  unfold cos
  rw [h0, h1, hd]
  norm_num

/-- Claim C3 as amended (the counterexample forces the cosine variant out):
for the `LP`, `manhattan` and `LINF` variants the dissimilarity is
non-negative on every matrix and every pair of column indices; the cosine
variant returns the raw cosine similarity and can be negative. -/
theorem C3_amended_nonneg :
    ∀ (sel : LossSel) (data : Mat) (i j : ℕ),
      sel ≠ LossSel.cosL → 0 ≤ applyLoss sel data i j := by
  intro sel data i j hsel
  cases sel with
  | lp p =>
      show 0 ≤ LP data p i j
      exact Real.rpow_nonneg
        (Finset.sum_nonneg fun f _ => pow_nonneg (abs_nonneg _) p) _
  | manhattanL =>
      show 0 ≤ manhattan data i j
      exact Finset.sum_nonneg fun f _ => abs_nonneg _
  | cosL => exact absurd rfl hsel
  | linfL =>
      show 0 ≤ LINF data i j
      exact foldr_max_nonneg _

/-- Claim C3, witness for the amended theorem at the Manhattan variant on
`Dneg`. -/
theorem C3_witness :
    LossSel.manhattanL ≠ LossSel.cosL ∧ 0 ≤ applyLoss .manhattanL Dneg 0 1 :=
  ⟨by decide, C3_amended_nonneg .manhattanL Dneg 0 1 (by decide)⟩

/-- Claim C1, counterexample: with the unrecognized loss tag `"foo"`,
`fit` does not surface any error — `setLossFn` catches its own
`std::invalid_argument` and merely prints it — and the BanditPAM engine IS
entered, contradicting "the error surfaces to the caller" and "the
clustering engine is not entered". -/
theorem C1_counterexample :
    (fit idEngine idEngine idEngine s0 Dzero ("foo".data)).2
      = FitOutcome.done (some Engine.banditE) true := by
  decide

/-- Claim C1 as amended: for every loss tag on which the parse chain of
`setLossFn` raises its `std::invalid_argument` (any tag that is not a
recognized word, does not start with a digit after the optional `L\d*`
strip, and is nonempty after that strip), `fit` prints the error inside
`setLossFn`, swallows it, and proceeds into the engine dispatch chain as
selected by the `algorithm` member; no error reaches the caller.  Only the
tags whose stripped form is empty (`""` and `"L"`) make an exception —
`std::out_of_range` from `loss.at(0)` — escape `fit`, in which case no
engine is entered. -/
theorem C1_amended_fit_swallows_loss_error :
    ∀ (rn rb rf : KMTop → Mat → KMTop) (s : KMTop) (D : Mat) (tag : List Char),
      setLossFnParse tag = .caughtInvalid →
      (fit rn rb rf s D tag).2 = .done (dispatchAlg s.algorithm) true
      ∧ setLossFnParse [] = .uncaughtOutOfRange
      ∧ (fit rn rb rf s D []).2 = .crashed := by
  intro rn rb rf s D tag h
  refine ⟨?_, by decide, ?_⟩
  · unfold fit
    rw [h]
    show (fitResume rn rb rf s D .caughtInvalid).2 = _
    simp only [fitResume]
    rw [runDispatch_snd rn rb rf s D]
  · unfold fit
    rw [show setLossFnParse [] = .uncaughtOutOfRange from by decide]
    rfl

/-- Claim C1, witness for the amended theorem at tag `"foo"` and state
`s0`. -/
theorem C1_witness :
    setLossFnParse ("foo".data) = ParseOutcome.caughtInvalid
    ∧ ((fit idEngine idEngine idEngine s0 Dzero ("foo".data)).2
          = .done (dispatchAlg s0.algorithm) true
        ∧ setLossFnParse [] = .uncaughtOutOfRange
        ∧ (fit idEngine idEngine idEngine s0 Dzero []).2 = .crashed) :=
  ⟨by decide,
    C1_amended_fit_swallows_loss_error idEngine idEngine idEngine s0 Dzero
      ("foo".data) (by decide)⟩

/-- Claim C2 (code bug): column 0 of `Dzero` has Euclidean norm 0, the tag
`"cos"` selects the cosine loss, and yet `fit` completes with no error of
any kind (nothing printed, nothing thrown) and enters the engine, whose
dissimilarity calls evaluate the quotient `dot / (normCol i * normCol j)`
with a zero denominator instead of reporting a configuration error at fit
start. -/
theorem C2_no_zero_norm_check :
    normCol Dzero 0 = 0
    ∧ setLossFnParse ("cos".data) = .ok .cosL
    ∧ (fit idEngine idEngine idEngine sNaive Dzero ("cos".data)).2
        = .done (some Engine.naiveE) false
    ∧ normCol Dzero 0 * normCol Dzero 1 = 0 := by
  have h : normCol Dzero 0 = 0 := by
    simp [normCol, Dzero]
  exact ⟨h, by decide, by decide, by rw [h, zero_mul]⟩

/-- Claim C9 (confirmed): assignment recomputation leaves the data matrix,
the selected loss and the medoid index sequence unchanged; the only fields
it rewrites are the best-distance, second-distance and assignment
vectors. -/
theorem C9_frame :
    ∀ s : SwapCallState,
      (calc_best_distances_swap_state s).data = s.data
      ∧ (calc_best_distances_swap_state s).lossSel = s.lossSel
      ∧ (calc_best_distances_swap_state s).medoid_indices = s.medoid_indices :=
  fun _ => ⟨rfl, rfl, rfl⟩

/-- Claim C10 (confirmed): `setAlgorithm` with an invalid string throws
(`.2 = true`) but has already overwritten the `algorithm` member with the
invalid string; a subsequent `fit` in this state (with any loss tag whose
parse does not itself crash) dispatches to none of the three engines and
performs no clustering: the medoid, label and step members are returned
untouched. -/
theorem C10_setAlgorithm_not_atomic :
    ∀ (s : KMTop) (a : List Char) (rn rb rf : KMTop → Mat → KMTop)
      (D : Mat) (tag : List Char),
      checkAlgorithm a = false →
      setLossFnParse tag ≠ ParseOutcome.uncaughtOutOfRange →
      (setAlgorithm s a).2 = true
      ∧ (setAlgorithm s a).1.algorithm = a
      ∧ ((fit rn rb rf (setAlgorithm s a).1 D tag).2 = .done none true
          ∨ (fit rn rb rf (setAlgorithm s a).1 D tag).2 = .done none false)
      ∧ (fit rn rb rf (setAlgorithm s a).1 D tag).1.medoid_indices_build
          = s.medoid_indices_build
      ∧ (fit rn rb rf (setAlgorithm s a).1 D tag).1.medoid_indices_final
          = s.medoid_indices_final
      ∧ (fit rn rb rf (setAlgorithm s a).1 D tag).1.labels = s.labels
      ∧ (fit rn rb rf (setAlgorithm s a).1 D tag).1.steps = s.steps := by
  intro s a rn rb rf D tag hchk htag
  have hthrew : (setAlgorithm s a).2 = true := by
    simp [setAlgorithm, hchk]
  refine ⟨hthrew, rfl, ?_⟩
  rcases hp : setLossFnParse tag with sel | _ | _
  · have hrd : runDispatch rn rb rf { (setAlgorithm s a).1 with lossSel := sel } D
        = ({ (setAlgorithm s a).1 with lossSel := sel }, none) :=
      runDispatch_invalid rn rb rf _ D hchk
    have hfit : fit rn rb rf (setAlgorithm s a).1 D tag
        = ({ (setAlgorithm s a).1 with lossSel := sel }, .done none false) := by
      unfold fit
      rw [hp]
      show fitResume rn rb rf _ D (.ok sel) = _
      simp only [fitResume]
      rw [hrd]
    rw [hfit]
    exact ⟨Or.inr rfl, rfl, rfl, rfl, rfl⟩
  · have hrd : runDispatch rn rb rf (setAlgorithm s a).1 D
        = ((setAlgorithm s a).1, none) :=
      runDispatch_invalid rn rb rf _ D hchk
    have hfit : fit rn rb rf (setAlgorithm s a).1 D tag
        = ((setAlgorithm s a).1, .done none true) := by
      unfold fit
      rw [hp]
      show fitResume rn rb rf _ D .caughtInvalid = _
      simp only [fitResume]
      rw [hrd]
    rw [hfit]
    exact ⟨Or.inl rfl, rfl, rfl, rfl, rfl⟩
  · exact absurd hp htag

/-- Claim C10, witness at the invalid algorithm string `"foo"`, state `s0`
and loss tag `"L2"`. -/
theorem C10_witness :
    checkAlgorithm ("foo".data) = false
    ∧ setLossFnParse ("L2".data) ≠ ParseOutcome.uncaughtOutOfRange
    ∧ ((setAlgorithm s0 ("foo".data)).2 = true
        ∧ (setAlgorithm s0 ("foo".data)).1.algorithm = "foo".data
        ∧ ((fit idEngine idEngine idEngine (setAlgorithm s0 ("foo".data)).1 Dzero
              ("L2".data)).2 = .done none true
            ∨ (fit idEngine idEngine idEngine (setAlgorithm s0 ("foo".data)).1 Dzero
              ("L2".data)).2 = .done none false)
        ∧ (fit idEngine idEngine idEngine (setAlgorithm s0 ("foo".data)).1 Dzero
              ("L2".data)).1.medoid_indices_build = s0.medoid_indices_build
        ∧ (fit idEngine idEngine idEngine (setAlgorithm s0 ("foo".data)).1 Dzero
              ("L2".data)).1.medoid_indices_final = s0.medoid_indices_final
        ∧ (fit idEngine idEngine idEngine (setAlgorithm s0 ("foo".data)).1 Dzero
              ("L2".data)).1.labels = s0.labels
        ∧ (fit idEngine idEngine idEngine (setAlgorithm s0 ("foo".data)).1 Dzero
              ("L2".data)).1.steps = s0.steps) :=
  ⟨by decide, by decide,
    C10_setAlgorithm_not_atomic s0 ("foo".data) idEngine idEngine idEngine Dzero
      ("L2".data) (by decide) (by decide)⟩

/-- Claim C7 (confirmed): for every dissimilarity, medoid sequence `M`
(driving both the `n_medoids` bound and the `medoid_indices` row of the
source) and point count `N`, `calc_loss` returns exactly the sum, over all
points `i < N`, of the minimum over `m ∈ M` of `d(D, m, i)` (the minimum
over the empty `M` being the `+infinity` the inner loop starts from). -/
theorem C7_calc_loss_correct :
    ∀ (dis : ℕ → ℕ → ℝ) (M : List ℕ) (N : ℕ),
      calc_loss dis M.length (fun k => M.getD k 0) N
        = ∑ i in Finset.range N, M.toFinset.inf fun m => ((dis m i : ℝ) : EReal) := by
  intro dis M N
  unfold calc_loss
  refine Finset.sum_congr rfl fun i _ => ?_
  have h1 : calc_loss_point dis M.length (fun k => M.getD k 0) i
      = M.foldl
          (fun c m => if ((dis m i : ℝ) : EReal) < c then ((dis m i : ℝ) : EReal) else c)
          ⊤ :=
    foldl_range_getD
      (fun c m => if ((dis m i : ℝ) : EReal) < c then ((dis m i : ℝ) : EReal) else c)
      0 M ⊤
  rw [h1, foldl_min_eq_inf (fun m => ((dis m i : ℝ) : EReal)) M ⊤, top_inf_eq]

/-- Claim C6 (confirmed): `build_sigma[i]` is the sample standard deviation
(the `n - 1` denominator is explicit in the last conjunct) over the one
shared reference sample of `min(d(D,i,r), b[r]) - b[r]`; with `use_absolute`
set the raw `d(D,i,r)` is used and the result does not depend on the
best-distance vector at all, so no `inf - inf` subtraction occurs. -/
theorem C6_build_sigma_correct :
    ∀ (dis : ℕ → ℕ → ℝ) (b b2 : ℕ → ℝ) (tmp_refs : List ℕ) (i : ℕ),
      build_sigma dis b tmp_refs true i = stddev (tmp_refs.map fun r => dis i r)
      ∧ build_sigma dis b tmp_refs true i = build_sigma dis b2 tmp_refs true i
      ∧ build_sigma dis b tmp_refs false i
          = stddev (tmp_refs.map fun r => min (dis i r) (b r) - b r)
      ∧ stddev (tmp_refs.map fun r => min (dis i r) (b r) - b r)
          = Real.sqrt
              (((tmp_refs.map fun r => min (dis i r) (b r) - b r).map fun x =>
                  (x - sampleMean (tmp_refs.map fun r => min (dis i r) (b r) - b r)) ^ 2).sum
                / (((tmp_refs.map fun r => min (dis i r) (b r) - b r).length : ℝ) - 1)) := by
  intro dis b b2 tmp_refs i
  have habs : ∀ b3 : ℕ → ℝ,
      build_sigma dis b3 tmp_refs true i = stddev (tmp_refs.map fun r => dis i r) :=
    fun b3 => rfl
  have hrel : build_sigma dis b tmp_refs false i
      = stddev (tmp_refs.map fun r => min (dis i r) (b r) - b r) := by
    have hfun : (fun r => (if dis i r < b r then dis i r else b r) - b r)
        = fun r => min (dis i r) (b r) - b r := by
      funext r
      rw [if_lt_eq_min]
    show stddev (tmp_refs.map fun r => (if dis i r < b r then dis i r else b r) - b r) = _
    rw [hfun]
  exact ⟨habs b, (habs b).trans (habs b2).symm, hrel, rfl⟩

/-- Claim C5 (confirmed): `swap_sigma` fills an entry for every arm
`(k, n)` with `k < K`, `n < N` (flat index `i = n * K + k` is the unique
loop index writing that entry), and the entry is the sample standard
deviation, over the one reference sample shared by all arms, of
`reward(k,n,r) - best[r]`, where the reward is `min(d(D,n,r), second[r])`
when `assign[r] = k` and `min(d(D,n,r), best[r])` otherwise. -/
theorem C5_swap_sigma_correct :
    ∀ (dis : ℕ → ℕ → ℝ) (K N : ℕ) (tmp_refs : List ℕ)
      (best_distances second_best_distances : ℕ → ℝ) (assignments : ℕ → ℕ)
      (k n : ℕ), k < K → n < N →
      swap_sigma dis K N tmp_refs best_distances second_best_distances assignments (k, n)
        = stddev (tmp_refs.map fun r =>
            (if assignments r = k
             then min (dis n r) (second_best_distances r)
             else min (dis n r) (best_distances r)) - best_distances r) := by
  intro dis K N refs best second assign k n hk hn
  have hK : 0 < K := lt_of_le_of_lt (Nat.zero_le k) hk
  have hmod : (n * K + k) % K = k := by
    rw [Nat.add_comm, Nat.add_mul_mod_self_right, Nat.mod_eq_of_lt hk]
  have hdiv : (n * K + k) / K = n := by
    rw [Nat.add_comm, Nat.add_mul_div_right _ _ hK, Nat.div_eq_of_lt hk, Nat.zero_add]
  have hkey : arm_key K (n * K + k) = (k, n) := by
    unfold arm_key
    rw [hmod, hdiv]
  have hmem : n * K + k ∈ List.range (K * N) := by
    rw [List.mem_range]
    calc n * K + k < n * K + K := Nat.add_lt_add_left hk _
    _ = (n + 1) * K := (Nat.succ_mul n K).symm
    _ ≤ N * K := Nat.mul_le_mul_right K hn
    _ = K * N := Nat.mul_comm N K
  have huniq : ∀ i ∈ List.range (K * N),
      arm_key K i = arm_key K (n * K + k) → i = n * K + k := by
    intro i _ he
    rw [hkey] at he
    unfold arm_key at he
    have h1 : i % K = k := congrArg Prod.fst he
    have h2 : i / K = n := congrArg Prod.snd he
    rw [← Nat.div_add_mod i K, h1, h2, Nat.mul_comm]
  have hval : swap_arm_value dis refs best second assign K (n * K + k)
      = stddev (refs.map fun r =>
          (if assign r = k then min (dis n r) (second r) else min (dis n r) (best r))
          - best r) := by
    simp only [swap_arm_value]
    rw [hmod, hdiv]
    congr 1
    refine List.map_congr_left fun r _ => ?_
    rw [if_lt_eq_min, if_lt_eq_min]
    by_cases h : assign r = k
    · rw [if_pos h.symm, if_pos h]
    · rw [if_neg fun he => h he.symm, if_neg h]
  unfold swap_sigma
  rw [← hkey,
    foldl_update_lookup (arm_key K)
      (swap_arm_value dis refs best second assign K)
      (List.range (K * N)) _ _ hmem huniq,
    hval]

/-- Claim C4 (confirmed): for every dissimilarity (the source calls it
through the abstract `lossFn` member), every nonempty medoid sequence `M`
and every point `i`, the scan of `calc_best_distances_swap` returns the
minimum of the medoid costs as `best`, the second smallest cost
(multiplicity counted: the minimum of the cost multiset after removing one
occurrence of its minimum) as `second` — whence `best ≤ second` whenever
`|M| ≥ 2` — and, as `assign`, the position in `M` of the first medoid
achieving the minimum: the cost at slot `assign` equals `best` and every
earlier slot has a strictly larger cost. -/
theorem C4_calc_best_distances_swap_correct {α : Type} [LinearOrder α] :
    ∀ (dis : ℕ → ℕ → α) (M : List ℕ) (i : ℕ), M ≠ [] →
      (calc_best_distances_swap dis M i).best = (costMS dis M i).inf
      ∧ (calc_best_distances_swap dis M i).second
          = ((costMS dis M i).erase (costMS dis M i).inf).inf
      ∧ (2 ≤ M.length →
          (calc_best_distances_swap dis M i).best
            ≤ (calc_best_distances_swap dis M i).second)
      ∧ (calc_best_distances_swap dis M i).assign < M.length
      ∧ (∀ x, (M.map fun m => dis m i).get?
            (calc_best_distances_swap dis M i).assign = some x →
          (x : WithTop α) = (calc_best_distances_swap dis M i).best)
      ∧ (∀ t, t < (calc_best_distances_swap dis M i).assign →
          ∀ x, (M.map fun m => dis m i).get? t = some x →
            (calc_best_distances_swap dis M i).best < (x : WithTop α)) := by
  intro dis M i hM
  have hcs : (M.map fun m => dis m i) ≠ [] := by
    intro h
    exact hM (List.map_eq_nil_iff.mp h)
  have hpair : ((calc_best_distances_swap dis M i).best,
        (calc_best_distances_swap dis M i).second)
      = twoSmallest ((⊤ : WithTop α) ::ₘ ⊤ ::ₘ costMS dis M i) :=
    bdsGo_pair (M.map fun m => dis m i) ⟨⊤, ⊤, 0⟩ 0 le_rfl
  have hms0 : costMS dis M i ≠ 0 := by
    simp only [costMS, coeList, Ne, Multiset.coe_eq_zero, List.map_eq_nil_iff]
    exact hM
  have hinf_ne_top : (costMS dis M i).inf ≠ ⊤ := by
    intro htop
    have hmemtop : (⊤ : WithTop α) ∈ costMS dis M i := htop ▸ msInf_mem _ hms0
    simp only [costMS, coeList, Multiset.mem_coe] at hmemtop
    obtain ⟨y, -, hy⟩ := List.mem_map.mp hmemtop
    exact WithTop.coe_ne_top hy
  have htop_inf : ((⊤ : WithTop α) ::ₘ ⊤ ::ₘ costMS dis M i).inf
      = (costMS dis M i).inf := by
    rw [Multiset.inf_cons, Multiset.inf_cons, top_inf_eq, top_inf_eq]
  have h2nd : twoSmallest ((⊤ : WithTop α) ::ₘ ⊤ ::ₘ costMS dis M i)
      = ((costMS dis M i).inf,
          ((costMS dis M i).erase ((costMS dis M i).inf)).inf) := by
    unfold twoSmallest
    rw [htop_inf]
    have herase : ((⊤ : WithTop α) ::ₘ ⊤ ::ₘ costMS dis M i).erase
          ((costMS dis M i).inf)
        = ⊤ ::ₘ ⊤ ::ₘ (costMS dis M i).erase ((costMS dis M i).inf) := by
      rw [Multiset.erase_cons_tail _ (Ne.symm hinf_ne_top),
        Multiset.erase_cons_tail _ (Ne.symm hinf_ne_top)]
    rw [herase, Multiset.inf_cons, Multiset.inf_cons, top_inf_eq, top_inf_eq]
  have h12 := hpair.trans h2nd
  have hbest : (calc_best_distances_swap dis M i).best = (costMS dis M i).inf :=
    congrArg Prod.fst h12
  have hsecond : (calc_best_distances_swap dis M i).second
      = ((costMS dis M i).erase ((costMS dis M i).inf)).inf :=
    congrArg Prod.snd h12
  have hexists : ∃ y ∈ (M.map fun m => dis m i),
      (y : WithTop α) < (⟨⊤, ⊤, 0⟩ : BDS α).best := by
    obtain ⟨y, hy⟩ := List.exists_mem_of_ne_nil _ hcs
    exact ⟨y, hy, WithTop.coe_lt_top y⟩
  obtain ⟨j, hjlen, hjassign, hjeq, hjlt⟩ :=
    (bdsGo_assign (M.map fun m => dis m i) ⟨⊤, ⊤, 0⟩ 0).2 hexists
  have hassign : (calc_best_distances_swap dis M i).assign = j := by
    have h := hjassign
    rw [Nat.zero_add] at h
    exact h
  refine ⟨hbest, hsecond, ?_, ?_, ?_, ?_⟩
  · intro _
    rw [hbest, hsecond]
    exact Multiset.le_inf.mpr fun b hb => Multiset.inf_le (Multiset.mem_of_mem_erase hb)
  · rw [hassign]
    rw [List.length_map] at hjlen
    exact hjlen
  · intro x hx
    rw [hassign] at hx
    exact hjeq x hx
  · intro t ht x hx
    rw [hassign] at ht
    exact hjlt t ht x hx

/-- Claim C4, witness at the rational dissimilarity `disQ`, medoids
`[0, 1]` and point 0 (costs `[5, 3]`). -/
theorem C4_witness :
    ([0, 1] : List ℕ) ≠ []
    ∧ ((calc_best_distances_swap disQ [0, 1] 0).best = (costMS disQ [0, 1] 0).inf
      ∧ (calc_best_distances_swap disQ [0, 1] 0).second
          = ((costMS disQ [0, 1] 0).erase (costMS disQ [0, 1] 0).inf).inf
      ∧ (2 ≤ ([0, 1] : List ℕ).length →
          (calc_best_distances_swap disQ [0, 1] 0).best
            ≤ (calc_best_distances_swap disQ [0, 1] 0).second)
      ∧ (calc_best_distances_swap disQ [0, 1] 0).assign < ([0, 1] : List ℕ).length
      ∧ (∀ x, (([0, 1] : List ℕ).map fun m => disQ m 0).get?
            (calc_best_distances_swap disQ [0, 1] 0).assign = some x →
          (x : WithTop ℚ) = (calc_best_distances_swap disQ [0, 1] 0).best)
      ∧ (∀ t, t < (calc_best_distances_swap disQ [0, 1] 0).assign →
          ∀ x, (([0, 1] : List ℕ).map fun m => disQ m 0).get? t = some x →
            (calc_best_distances_swap disQ [0, 1] 0).best < (x : WithTop ℚ))) :=
  ⟨by decide, C4_calc_best_distances_swap_correct disQ [0, 1] 0 (by decide)⟩

/-- Claim C5, witness at `K = N = 1`, arm `(0, 0)`, one reference. -/
theorem C5_witness :
    (0 : ℕ) < 1
    ∧ swap_sigma (fun _ _ => (0 : ℝ)) 1 1 [0] (fun _ => 0) (fun _ => 0)
        (fun _ => 0) (0, 0)
        = stddev ([0].map fun _ =>
            (if (0 : ℕ) = 0 then min ((0 : ℝ)) 0 else min ((0 : ℝ)) 0) - 0) :=
  ⟨by decide,
    C5_swap_sigma_correct (fun _ _ => 0) 1 1 [0] (fun _ => 0) (fun _ => 0)
      (fun _ => 0) 0 0 (by decide) (by decide)⟩

end KM
